import Mathlib

/-!
# planter: schema model, relationship inference, table filter, document wrapper

A shallow embedding of `planter.go`.

Modelling conventions

* A `*Table` is an address: a position in the list of loaded tables (the heap
  of `Table` objects).  Dereferencing an address outside that list is the Go
  nil-pointer panic and is rendered as `none`.
* `ForeignKeyAnalysis` receives the slice of all loaded tables, one distinct
  pointer each, so its argument is the heap itself; `FilterTables` receives
  an arbitrary slice of addresses together with the heap.
* The core never writes to a `Column` or a `ForeignKey` after loading, so a
  `*Column` is modelled by the column it points to (`none` is the nil
  pointer) and a `*ForeignKey` by the key.
* The only field the core writes is `Table.ForeingKeys`; every write is an
  explicit replacement of a heap cell, and a function that mutates returns
  the heap after the call.
* `[]byte` and `string` are both modelled by `String`.
* The regular-expression engine (`regexp.MustCompile`, `MatchString`) is a
  library outside the repository and is taken as a parameter.
-/

namespace Planter

/-! ## Data model -/

/-- The `sql.NullString` of the standard library. -/
structure NullString where
  String : String
  Valid : Bool
  deriving DecidableEq, Repr

/-- Column of a table (`type Column struct`). -/
structure Column where
  FieldOrdinal : Int
  Name : String
  Comment : NullString
  DataType : String
  DDLType : String
  NotNull : Bool
  IsPrimaryKey : Bool
  IsForeignKey : Bool
  deriving DecidableEq, Repr

/-- Foreign key (`type ForeignKey struct`).  `SourceTable` and `TargetTable`
are table addresses, `SourceColumn` and `TargetColumn` the pointed-to columns
(`none` for nil). -/
structure ForeignKey where
  ConstraintName : String
  SourceTableName : String
  SourceColName : String
  IsSourceColPrimaryKey : Bool
  SourceTable : Nat
  SourceColumn : Option Column
  TargetTableName : String
  TargetColName : String
  IsTargetColPrimaryKey : Bool
  TargetTable : Nat
  TargetColumn : Option Column
  deriving DecidableEq, Repr

/-- Table (`type Table struct`); the field name `ForeingKeys` is the source's. -/
structure Table where
  Name : String
  Comment : NullString
  AutoGenPk : Bool
  Columns : List Column
  ForeingKeys : List ForeignKey
  deriving DecidableEq, Repr

/-! ## Schema model queries -/

/-- The loop of `IsCompositePK`: `cnt` is the running count of primary-key
columns, the loop returns `true` as soon as it reaches 2. -/
def IsCompositePK.loop : List Column → Nat → Bool
  | [], _ => false
  | c :: cs, cnt =>
    let cnt := if c.IsPrimaryKey then cnt + 1 else cnt
    if cnt ≥ 2 then true else IsCompositePK.loop cs cnt

/-- The method `func (t *Table) IsCompositePK() bool`. -/
def Table.IsCompositePK (t : Table) : Bool :=
  IsCompositePK.loop t.Columns 0

/-- Number of columns of a table flagged as primary key. -/
def Table.pkCount (t : Table) : Nat :=
  (t.Columns.filter (fun c => c.IsPrimaryKey)).length

/-- The function `FindTableByName`: first table of the slice with that name. -/
def FindTableByName : List Table → String → Option Table
  | [], _ => none
  | tbl :: rest, name =>
    if tbl.Name = name then some tbl else FindTableByName rest name

/-- Inner loop of `FindColumnByName` over the columns of one table. -/
def FindColumnByName.cols : List Column → String → Option Column
  | [], _ => none
  | col :: rest, colName =>
    if col.Name = colName then some col else FindColumnByName.cols rest colName

/-- The function `FindColumnByName`: every table with the given name is
searched in turn, the first column with the given name is returned. -/
def FindColumnByName : List Table → String → String → Option Column
  | [], _, _ => none
  | tbl :: rest, tableName, colName =>
    if tbl.Name = tableName then
      match FindColumnByName.cols tbl.Columns colName with
      | some col => some col
      | none => FindColumnByName rest tableName colName
    else FindColumnByName rest tableName colName

/-! ## Cardinality classifier -/

/-- First loop of `IsOneToOne`: collects the foreign keys of the source table
whose `TargetTableName` is that of `k`. -/
def IsOneToOne.collect (targetTableName : String) :
    List ForeignKey → List ForeignKey → List ForeignKey
  | [], targetFks => targetFks
  | fk :: rest, targetFks =>
    if fk.TargetTableName = targetTableName then
      IsOneToOne.collect targetTableName rest (targetFks ++ [fk])
    else IsOneToOne.collect targetTableName rest targetFks

/-- Second loop of `IsOneToOne`: `false` at the first collected key that is not
a primary key on both sides. -/
def IsOneToOne.allPk : List ForeignKey → Bool
  | [] => true
  | tfk :: rest =>
    if !tfk.IsSourceColPrimaryKey || !tfk.IsTargetColPrimaryKey then false
    else IsOneToOne.allPk rest

/-- The method `func (k *ForeignKey) IsOneToOne() bool`, read in the heap of
tables.  The `&&` chains short-circuit as in Go, so a pointer is dereferenced
only when the source evaluates it. -/
def ForeignKey.IsOneToOne (heap : List Table) (k : ForeignKey) : Option Bool := do
  let src ← heap[k.SourceTable]?
  let bothComposite ←
    if src.IsCompositePK then (do
      let tgt ← heap[k.TargetTable]?
      pure tgt.IsCompositePK)
    else pure false
  if bothComposite then
    let targetFks := IsOneToOne.collect k.TargetTableName src.ForeingKeys []
    pure (IsOneToOne.allPk targetFks)
  else
    let second ←
      if !src.IsCompositePK then (do
        let sc ← k.SourceColumn
        if sc.IsPrimaryKey then (do
          let tc ← k.TargetColumn
          pure tc.IsPrimaryKey)
        else pure false)
      else pure false
    if second then pure true else pure false

/-! ## Table filter -/

/-- The part of Go's `regexp` package that `FilterTables` uses: `compile` is
`regexp.Compile` (`none` when the pattern is invalid, where `MustCompile`
panics) and `MatchString` the method of that name. -/
structure RegexpEngine where
  Regexp : Type
  compile : String → Option Regexp
  MatchString : Regexp → String → Bool

/-- The function `contains`: some non-nil expression of `r` matches `v`. -/
def contains (E : RegexpEngine) (v : String) : List (Option E.Regexp) → Bool
  | [] => false
  | e :: rest =>
    match e with
    | some re => if E.MatchString re v then true else contains E v rest
    | none => contains E v rest

/-- The call `sort.Strings`: ascending order of strings. -/
def sortStrings (l : List String) : List String :=
  l.mergeSort (fun a b => decide (a ≤ b))

/-- The pattern built by `fmt.Sprintf` from one table name. -/
def tablePattern (tn : String) : String :=
  "([\\\\/])?" ++ tn ++ "([\\\\/])?"

/-- First loop of `FilterTables`: compiles one expression per name; `none`
is the panic of `regexp.MustCompile`. -/
def FilterTables.compileAll (E : RegexpEngine) :
    List String → List (Option E.Regexp) → Option (List (Option E.Regexp))
  | [], tblExps => some tblExps
  | tn :: rest, tblExps =>
    match E.compile (tablePattern tn) with
    | some r => FilterTables.compileAll E rest (tblExps ++ [some r])
    | none => none

/-- Inner loop of `FilterTables`: the foreign keys whose target table name
passes the match test. -/
def FilterTables.prune (E : RegexpEngine) (matchFlag : Bool)
    (tblExps : List (Option E.Regexp)) : List ForeignKey → List ForeignKey → List ForeignKey
  | [], fks => fks
  | fk :: rest, fks =>
    if contains E fk.TargetTableName tblExps = matchFlag then
      FilterTables.prune E matchFlag tblExps rest (fks ++ [fk])
    else FilterTables.prune E matchFlag tblExps rest fks

/-- Main loop of `FilterTables` over the slice `tbls` of table addresses:
threads the heap (a retained table has its `ForeingKeys` replaced) and the
result slice `target`. -/
def FilterTables.loop (E : RegexpEngine) (matchFlag : Bool)
    (tblExps : List (Option E.Regexp)) :
    List Nat → List Table → List Nat → Option (List Table × List Nat)
  | [], heap, target => some (heap, target)
  | tbl :: rest, heap, target =>
    match heap[tbl]? with
    | none => none
    | some t =>
      if contains E t.Name tblExps = matchFlag then
        let fks := FilterTables.prune E matchFlag tblExps t.ForeingKeys []
        FilterTables.loop E matchFlag tblExps rest
          (heap.set tbl { t with ForeingKeys := fks }) (target ++ [tbl])
      else FilterTables.loop E matchFlag tblExps rest heap target

/-- The function `FilterTables(match, tbls, tblNames)`, in the heap `heap`.
Returns the heap after the call and the returned slice of table addresses;
`none` is a panic (invalid pattern, nil table). -/
def FilterTables (E : RegexpEngine) (heap : List Table) (matchFlag : Bool)
    (tbls : List Nat) (tblNames : List String) : Option (List Table × List Nat) :=
  match FilterTables.compileAll E (sortStrings tblNames) [] with
  | none => none
  | some tblExps => FilterTables.loop E matchFlag tblExps tbls heap []

/-! ## Document wrapper -/

/-- The function `writePrefix(entry, rel, title)`. -/
def writePrefix (entry rel : String) (title : String) : String :=
  let src := "@startuml\n"
  let src := if title.length ≠ 0 then src ++ ("title " ++ title ++ "\n") else src
  let src := src ++ ("hide circle\n" ++ "skinparam linetype ortho\n")
  let src := src ++ entry
  let src := src ++ rel
  let src := src ++ "@enduml\n"
  src

/-! ## Relationship inference -/

/-- Scan of `strings.Contains`: `sub` is a prefix of some suffix of the text. -/
def stringsContains.scan (sub : List Char) : List Char → Bool
  | [] => sub.isPrefixOf []
  | c :: cs => sub.isPrefixOf (c :: cs) || stringsContains.scan sub cs

/-- The library function `strings.Contains(s, substr)`. -/
def stringsContains (s substr : String) : Bool :=
  stringsContains.scan substr.data s.data

/-- Loop of `fkEq` over the columns of the table named `tName`. -/
def fkEq.loop (tName : String) (colName : String) : List Column → Option Column
  | [] => none
  | col :: rest =>
    if col.IsPrimaryKey then
      if stringsContains col.Name tName then
        if colName = col.Name then some col else fkEq.loop tName colName rest
      else
        if colName = tName ++ "_" ++ col.Name then some col
        else fkEq.loop tName colName rest
    else fkEq.loop tName colName rest

/-- The method `func (t *Table) fkEq(colName string) (*Column, bool)`. -/
def Table.fkEq (t : Table) (colName : String) : Option Column :=
  fkEq.loop t.Name colName t.Columns

/-- Loop of `analyzeFKRel` over the columns of `otherTab`; `ti` and `oi` are
the addresses of `t` and `otherTab`. -/
def analyzeFKRel.loop (ti : Nat) (t : Table) (oi : Nat) (otherTab : Table) :
    List Column → List ForeignKey → List ForeignKey
  | [], fks => fks
  | col :: rest, fks =>
    if col.IsPrimaryKey then analyzeFKRel.loop ti t oi otherTab rest fks
    else
      match t.fkEq col.Name with
      | some source =>
        analyzeFKRel.loop ti t oi otherTab rest (fks ++ [{
          ConstraintName := col.Name
          SourceTableName := t.Name
          SourceColName := col.Name
          IsSourceColPrimaryKey := false
          SourceTable := ti
          SourceColumn := some source
          TargetTableName := otherTab.Name
          TargetColName := col.Name
          IsTargetColPrimaryKey := false
          TargetTable := oi
          TargetColumn := some col }])
      | none => analyzeFKRel.loop ti t oi otherTab rest fks

/-- The method `func (t *Table) analyzeFKRel(otherTab *Table) []*ForeignKey`. -/
def analyzeFKRel (ti : Nat) (t : Table) (oi : Nat) (otherTab : Table) : List ForeignKey :=
  analyzeFKRel.loop ti t oi otherTab otherTab.Columns []

/-- The function `tabRelAnalysis(cur, rel)` on the heap; `cur` and `rel` are
table addresses.  Each assignment to `ForeingKeys` is a heap write, and `rel`
is read after the write to `cur`. -/
def tabRelAnalysis (heap : List Table) (cur rel : Nat) : Option (List Table) := do
  let c ← heap[cur]?
  let r ← heap[rel]?
  let fk1 := analyzeFKRel cur c rel r
  let heap := heap.set cur { c with ForeingKeys := c.ForeingKeys ++ fk1 }
  let r ← heap[rel]?
  let c ← heap[cur]?
  let fk2 := analyzeFKRel rel r cur c
  let heap := heap.set rel { r with ForeingKeys := r.ForeingKeys ++ fk2 }
  pure heap

/-- Inner loop of `ForeignKeyAnalysis`: `rel` ranges over `tables[index+1:]`. -/
def ForeignKeyAnalysis.inner (cul : Nat) : List Nat → List Table → Option (List Table)
  | [], heap => some heap
  | rel :: rest, heap =>
    match tabRelAnalysis heap cul rel with
    | none => none
    | some heap => ForeignKeyAnalysis.inner cul rest heap

/-- Outer loop of `ForeignKeyAnalysis` over the indices of the slice, with the
`break` at `index == len(tables)-1`. -/
def ForeignKeyAnalysis.outer (len : Nat) : List Nat → List Table → Option (List Table)
  | [], heap => some heap
  | index :: rest, heap =>
    if (index : Int) = (len : Int) - 1 then some heap
    else
      match ForeignKeyAnalysis.inner index (List.range' (index + 1) (len - (index + 1))) heap with
      | none => none
      | some heap => ForeignKeyAnalysis.outer len rest heap

/-- First loop of `ForeignKeyAnalysis`: some table has a declared foreign key. -/
def ForeignKeyAnalysis.declared : List Table → Bool
  | [] => false
  | item :: rest =>
    if item.ForeingKeys.length > 0 then true else ForeignKeyAnalysis.declared rest

/-- The function `ForeignKeyAnalysis(tables)`.  The slice holds the loaded
tables, one distinct pointer each: `tables` is the heap and position `i` the
address of the `i`-th table.  The result is the heap after the call. -/
def ForeignKeyAnalysis (tables : List Table) : Option (List Table) :=
  if ForeignKeyAnalysis.declared tables then some tables
  else ForeignKeyAnalysis.outer tables.length (List.range tables.length) tables

/-! ## Plain-language counterparts used in the statements -/

/-- At least one pattern of `tblNames` compiles to an expression that matches
`v`. -/
def matchesAny (E : RegexpEngine) (tblNames : List String) (v : String) : Bool :=
  tblNames.any (fun tn =>
    match E.compile (tablePattern tn) with
    | some r => E.MatchString r v
    | none => false)

/-- The match test of the filter on a name: (some pattern matches it) equals
the mode flag. -/
def passes (E : RegexpEngine) (matchFlag : Bool) (tblNames : List String) (v : String) : Bool :=
  matchesAny E tblNames v == matchFlag

/-- The table at address `p` exists and its name passes the match test. -/
def retained (E : RegexpEngine) (matchFlag : Bool) (tblNames : List String)
    (heap : List Table) (p : Nat) : Bool :=
  match heap[p]? with
  | some t => passes E matchFlag tblNames t.Name
  | none => false

/-- A table with its foreign-key list cut down to the keys whose target table
name passes the match test; all other fields kept. -/
def prunedTable (E : RegexpEngine) (matchFlag : Bool) (tblNames : List String)
    (t : Table) : Table :=
  { t with ForeingKeys :=
      t.ForeingKeys.filter (fun fk => passes E matchFlag tblNames fk.TargetTableName) }

/-- The heap in which exactly the tables at the addresses `target` are pruned. -/
def prunedHeap (E : RegexpEngine) (matchFlag : Bool) (tblNames : List String)
    (heap : List Table) (target : List Nat) : List Table :=
  heap.mapIdx (fun i t => if i ∈ target then prunedTable E matchFlag tblNames t else t)

/-! ## Specification of the inference result -/

/-- The edges `ForeignKeyAnalysis` builds for owner `k` against table `j`:
`analyzeFKRel` on the two tables of the loaded set. -/
def edgesOf (ts : List Table) (k j : Nat) : List ForeignKey :=
  match ts[k]?, ts[j]? with
  | some t, some o => analyzeFKRel k t j o
  | _, _ => []

/-- What one call `tabRelAnalysis(a, b)` appends to the list of table `k`. -/
def pairEdges (ts : List Table) (k : Nat) (ab : Nat × Nat) : List ForeignKey :=
  (if ab.1 = k then edgesOf ts k ab.2 else []) ++ (if ab.2 = k then edgesOf ts k ab.1 else [])

/-- The heap after the calls `tabRelAnalysis(a, b)` for the pairs of `ps`, in
order. -/
def inferredHeap (ts : List Table) (ps : List (Nat × Nat)) : List Table :=
  ts.mapIdx (fun k t =>
    { t with ForeingKeys := t.ForeingKeys ++ ps.flatMap (pairEdges ts k) })

/-- The pairs `(index, rel)` visited by the two loops of `ForeignKeyAnalysis`
from outer index `s` on, `m` indices. -/
def pairsFrom (n s m : Nat) : List (Nat × Nat) :=
  (List.range' s m).flatMap (fun i => (List.range' (i + 1) (n - (i + 1))).map (fun j => (i, j)))

/-- The edge `analyzeFKRel` builds for the non-key column `col` of `otherTab`
(address `oi`) that `fkEq` matched with the column `source` of `t` (address
`ti`). -/
def inferredEdge (ti : Nat) (t : Table) (oi : Nat) (otherTab : Table)
    (col source : Column) : ForeignKey :=
  { ConstraintName := col.Name
    SourceTableName := t.Name
    SourceColName := col.Name
    IsSourceColPrimaryKey := false
    SourceTable := ti
    SourceColumn := some source
    TargetTableName := otherTab.Name
    TargetColName := col.Name
    IsTargetColPrimaryKey := false
    TargetTable := oi
    TargetColumn := some col }

/-! ## Concrete schemas -/

/-- Column with the given name and primary-key flag, all other fields zero. -/
def mkColumn (name : String) (pk : Bool) : Column :=
  { FieldOrdinal := 0, Name := name, Comment := { String := "", Valid := false },
    DataType := "", DDLType := "", NotNull := false, IsPrimaryKey := pk,
    IsForeignKey := false }

/-- Table with the given name and columns, no comment and no foreign key. -/
def mkTable (name : String) (cols : List Column) : Table :=
  { Name := name, Comment := { String := "", Valid := false }, AutoGenPk := false,
    Columns := cols, ForeingKeys := [] }

/-- A small regular-expression engine for the patterns of `FilterTables`:
every pattern compiles, and an expression matches the texts that contain the
pattern without its two optional separator groups (8 characters each). -/
def literalEngine : RegexpEngine :=
  { Regexp := String
    compile := fun pat => some pat
    MatchString := fun r v =>
      stringsContains v (String.mk ((r.data.drop 8).take (r.data.length - 16))) }

/-- A declared foreign key `orders.customer_id -> customers.id` as the
PostgreSQL loader resolves it (tables at addresses 0 and 1). -/
def declaredOrdersFk : ForeignKey :=
  { ConstraintName := "orders_customer_id_fkey"
    SourceTableName := "orders"
    SourceColName := "customer_id"
    IsSourceColPrimaryKey := false
    SourceTable := 0
    SourceColumn := some (mkColumn "customer_id" false)
    TargetTableName := "customers"
    TargetColName := "id"
    IsTargetColPrimaryKey := true
    TargetTable := 1
    TargetColumn := some (mkColumn "id" true) }

/-- Loaded set `orders(id PK, customer_id)`, `customers(id PK)` in which
`orders` carries the declared foreign key. -/
def declaredSchema : List Table :=
  [ { mkTable "orders" [mkColumn "id" true, mkColumn "customer_id" false] with
      ForeingKeys := [declaredOrdersFk] },
    mkTable "customers" [mkColumn "id" true] ]

/-- The table `orders(id PK, customer_id)`. -/
def ordersTable : Table :=
  mkTable "orders" [mkColumn "id" true, mkColumn "customer_id" false]

/-- The table `customers(id PK)`. -/
def customersTable : Table := mkTable "customers" [mkColumn "id" true]

/-- The table `customer(id PK)`. -/
def customerTable : Table := mkTable "customer" [mkColumn "id" true]

/-- Loaded set `[orders(id PK, customer_id), customers(id PK)]`, no declared
foreign key. -/
def pluralSchema : List Table := [ordersTable, customersTable]

/-- Loaded set `[orders(id PK, customer_id), customer(id PK)]`, no declared
foreign key. -/
def singularSchema : List Table := [ordersTable, customerTable]

/-- The edge `analyzeFKRel` builds in `singularSchema` for the owner `customer`
(address 1) from the column `customer_id` of `orders` (address 0). -/
def customerIdFk : ForeignKey :=
  { ConstraintName := "customer_id"
    SourceTableName := "customer"
    SourceColName := "customer_id"
    IsSourceColPrimaryKey := false
    SourceTable := 1
    SourceColumn := some (mkColumn "id" true)
    TargetTableName := "orders"
    TargetColName := "customer_id"
    IsTargetColPrimaryKey := false
    TargetTable := 0
    TargetColumn := some (mkColumn "customer_id" false) }

/-- The heap `ForeignKeyAnalysis` leaves for `singularSchema`. -/
def singularResult : List Table :=
  [ordersTable, { customerTable with ForeingKeys := [customerIdFk] }]

/-- Loaded set `[customer(customer_id PK), customer_address(customer_id PK,
street)]`, no declared foreign key. -/
def addressSchema : List Table :=
  [ mkTable "customer" [mkColumn "customer_id" true],
    mkTable "customer_address" [mkColumn "customer_id" true, mkColumn "street" false] ]

/-! ## Theorems -/

theorem IsCompositePK_loop_eq (cs : List Column) (cnt : Nat) (h : cnt < 2) :
    IsCompositePK.loop cs cnt
      = decide (2 ≤ cnt + (cs.filter (fun c => c.IsPrimaryKey)).length) := by
  induction cs generalizing cnt with
  | nil => simp [IsCompositePK.loop]; omega
  | cons c cs ih =>
    cases hc : c.IsPrimaryKey
    · simp only [IsCompositePK.loop, hc, Bool.false_eq_true, if_false, List.filter_cons]
      have h2 : ¬ cnt ≥ 2 := by omega
      rw [if_neg h2, ih cnt h]
    · simp only [IsCompositePK.loop, hc, if_true, List.filter_cons, List.length_cons]
      by_cases h2 : cnt + 1 ≥ 2
      · rw [if_pos h2]; symm; simp; omega
      · rw [if_neg h2, ih (cnt + 1) (by omega)]
        congr 1
        apply propext
        constructor <;> intro h3 <;> omega

theorem Table.IsCompositePK_eq (t : Table) :
    t.IsCompositePK = decide (2 ≤ t.pkCount) := by
  unfold Table.IsCompositePK Table.pkCount
  rw [IsCompositePK_loop_eq _ 0 (by omega)]
  simp

/-- C9: `IsCompositePK(T)` is true if and only if `T` has at least two columns
with `IsPrimaryKey = true`; it is false for zero or one such column. -/
theorem C9_IsCompositePK_iff (t : Table) :
    (t.IsCompositePK = true ↔
        2 ≤ (t.Columns.filter (fun c => c.IsPrimaryKey = true)).length)
      ∧ ((t.Columns.filter (fun c => c.IsPrimaryKey = true)).length ≤ 1 →
          t.IsCompositePK = false) := by
  have h := Table.IsCompositePK_eq t
  unfold Table.pkCount at h
  simp only [Bool.decide_eq_true] at *
  constructor
  · rw [h]; simp
  · intro h1; rw [h]; simp; omega


theorem writePrefix_eq (entry rel title : String) :
    writePrefix entry rel title
      = "@startuml\n" ++ (if title = "" then "" else "title " ++ title ++ "\n")
          ++ "hide circle\nskinparam linetype ortho\n" ++ entry ++ rel ++ "@enduml\n" := by
  unfold writePrefix
  dsimp only
  by_cases h : title = ""
  · subst h
    rw [if_pos rfl, if_neg (by decide)]
    apply String.ext
    simp only [String.data_append]
    rfl
  · have hl : title.length ≠ 0 := by
      intro h0
      apply h
      cases title with
      | mk d =>
        have hd : d.length = 0 := h0
        rw [List.length_eq_zero] at hd
        subst hd
        rfl
    rw [if_neg h, if_pos hl]
    apply String.ext
    simp only [String.data_append, List.append_assoc]
    rfl

theorem C8_writePrefix_layout (entry rel title : String) :
    writePrefix entry rel title
        = "@startuml\n" ++ (if title = "" then "" else "title " ++ title ++ "\n")
            ++ "hide circle\nskinparam linetype ortho\n" ++ entry ++ rel ++ "@enduml\n"
      ∧ "@startuml".data <+: (writePrefix entry rel title).data
      ∧ "@enduml\n".data <:+ (writePrefix entry rel title).data
      ∧ (title = "" →
          ("@startuml\nhide circle\nskinparam linetype ortho\n" ++ entry).data
            <+: (writePrefix entry rel title).data)
      ∧ (title ≠ "" →
          ("@startuml\ntitle " ++ title ++ "\nhide circle\nskinparam linetype ortho\n"
              ++ entry).data
            <+: (writePrefix entry rel title).data) := by
  refine ⟨writePrefix_eq entry rel title, ?_, ?_, ?_, ?_⟩
  · rw [writePrefix_eq]
    simp only [String.data_append, List.append_assoc]
    exact ⟨"\n".data ++ _, rfl⟩
  · rw [writePrefix_eq]
    simp only [String.data_append]
    exact ⟨_, rfl⟩
  · intro h
    rw [writePrefix_eq]
    subst h
    simp only [if_true, String.data_append, List.append_assoc]
    exact ⟨rel.data ++ "@enduml\n".data, rfl⟩
  · intro h
    rw [writePrefix_eq]
    rw [if_neg h]
    refine ⟨rel.data ++ "@enduml\n".data, ?_⟩
    simp only [String.data_append, List.append_assoc]
    rfl

/-! ### Cardinality classifier -/

theorem IsOneToOne.collect_eq (name : String) (fks acc : List ForeignKey) :
    IsOneToOne.collect name fks acc
      = acc ++ fks.filter (fun fk => decide (fk.TargetTableName = name)) := by
  induction fks generalizing acc with
  | nil => simp [IsOneToOne.collect]
  | cons fk rest ih =>
    by_cases h : fk.TargetTableName = name
    · simp [IsOneToOne.collect, h, ih]
    · simp [IsOneToOne.collect, h, ih]

theorem IsOneToOne.allPk_iff (fks : List ForeignKey) :
    IsOneToOne.allPk fks = true ↔
      ∀ fk ∈ fks, fk.IsSourceColPrimaryKey = true ∧ fk.IsTargetColPrimaryKey = true := by
  induction fks with
  | nil => simp [IsOneToOne.allPk]
  | cons fk rest ih =>
    cases hs : fk.IsSourceColPrimaryKey <;> cases ht : fk.IsTargetColPrimaryKey <;>
      simp [IsOneToOne.allPk, hs, ht, ih]

/-- C7: for a foreign key whose table and column pointers resolve, `IsOneToOne`
returns, and it returns true exactly when (1) source and target tables both
have at least two primary-key columns and every foreign key of the source
table with the same `TargetTableName` is a primary key on both sides, or
(2) the source table has fewer than two primary-key columns and the source
and target columns are both primary keys.  In particular, with a
non-composite source the result is true exactly when both columns are
primary keys. -/
theorem C7_IsOneToOne_iff (heap : List Table) (k : ForeignKey) (S T : Table)
    (sc tc : Column)
    (hS : heap[k.SourceTable]? = some S) (hT : heap[k.TargetTable]? = some T)
    (hsc : k.SourceColumn = some sc) (htc : k.TargetColumn = some tc) :
    ∃ b, k.IsOneToOne heap = some b
      ∧ (b = true ↔
          ((2 ≤ S.pkCount ∧ 2 ≤ T.pkCount ∧
              ∀ fk ∈ S.ForeingKeys, fk.TargetTableName = k.TargetTableName →
                fk.IsSourceColPrimaryKey = true ∧ fk.IsTargetColPrimaryKey = true)
            ∨ (¬ 2 ≤ S.pkCount ∧ sc.IsPrimaryKey = true ∧ tc.IsPrimaryKey = true)))
      ∧ (¬ 2 ≤ S.pkCount →
          (b = true ↔ sc.IsPrimaryKey = true ∧ tc.IsPrimaryKey = true)) := by
  have hSc := Table.IsCompositePK_eq S
  have hTc := Table.IsCompositePK_eq T
  by_cases h1 : 2 ≤ S.pkCount
  · by_cases h2 : 2 ≤ T.pkCount
    · refine ⟨IsOneToOne.allPk
        (IsOneToOne.collect k.TargetTableName S.ForeingKeys []), ?_, ?_, ?_⟩
      · simp [ForeignKey.IsOneToOne, hS, hT, hSc, hTc, h1, h2]
      · rw [IsOneToOne.allPk_iff, IsOneToOne.collect_eq]
        simp [h1, h2]
      · intro h; exact absurd h1 h
    · refine ⟨false, ?_, ?_, ?_⟩
      · simp [ForeignKey.IsOneToOne, hS, hT, hSc, hTc, h1, h2]
      · simp [h1, h2]
      · intro h; exact absurd h1 h
  · refine ⟨sc.IsPrimaryKey && tc.IsPrimaryKey, ?_, ?_, ?_⟩
    · cases hp : sc.IsPrimaryKey <;> cases hq : tc.IsPrimaryKey <;>
        simp [ForeignKey.IsOneToOne, hS, hsc, htc, hSc, h1, hp, hq]
    · simp [h1]
    · intro _; simp

/-! ### Relationship inference: the all-or-nothing gate -/

theorem ForeignKeyAnalysis.declared_iff (tables : List Table) :
    ForeignKeyAnalysis.declared tables = true ↔ ∃ t ∈ tables, t.ForeingKeys ≠ [] := by
  induction tables with
  | nil => simp [ForeignKeyAnalysis.declared]
  | cons t rest ih =>
    by_cases h : t.ForeingKeys = []
    · simp [ForeignKeyAnalysis.declared, h, ih]
    · have : t.ForeingKeys.length > 0 := List.length_pos.mpr h
      simp [ForeignKeyAnalysis.declared, this, h]

/-- C4: when at least one table of the set has a non-empty `ForeingKeys`
list, `ForeignKeyAnalysis` returns with every table (foreign-key list and all
other fields) exactly as before the call. -/
theorem C4_ForeignKeyAnalysis_declared_unchanged (tables : List Table)
    (h : ∃ t ∈ tables, t.ForeingKeys ≠ []) :
    ForeignKeyAnalysis tables = some tables := by
  unfold ForeignKeyAnalysis
  rw [if_pos ((ForeignKeyAnalysis.declared_iff tables).mpr h)]

/-! ### Table filter -/

theorem contains_iff (E : RegexpEngine) (v : String) (exps : List (Option E.Regexp)) :
    contains E v exps = true ↔ ∃ r, some r ∈ exps ∧ E.MatchString r v = true := by
  induction exps with
  | nil => simp [contains]
  | cons e rest ih =>
    cases e with
    | none => simp [contains, ih]
    | some re =>
      by_cases h : E.MatchString re v = true
      · simp only [contains, h, if_true, true_iff]
        exact ⟨re, by simp, h⟩
      · have hu : contains E v (some re :: rest) = contains E v rest := by
          show (if E.MatchString re v = true then true else contains E v rest) = _
          rw [if_neg h]
        rw [hu, ih]
        constructor
        · rintro ⟨r, hr, hm⟩
          exact ⟨r, List.mem_cons_of_mem _ hr, hm⟩
        · rintro ⟨r, hr, hm⟩
          rcases List.mem_cons.mp hr with hr | hr
          · have hre : r = re := Option.some.inj hr
            rw [hre] at hm
            exact absurd hm h
          · exact ⟨r, hr, hm⟩

theorem FilterTables.compileAll_spec (E : RegexpEngine) (names : List String)
    (acc : List (Option E.Regexp))
    (h : ∀ tn ∈ names, (E.compile (tablePattern tn)).isSome = true) :
    ∃ exps, FilterTables.compileAll E names acc = some (acc ++ exps)
      ∧ ∀ r, some r ∈ exps ↔ ∃ tn ∈ names, E.compile (tablePattern tn) = some r := by
  induction names generalizing acc with
  | nil => exact ⟨[], by simp [FilterTables.compileAll], by simp⟩
  | cons tn rest ih =>
    have h1 := h tn (by simp)
    obtain ⟨r0, hr0⟩ := Option.isSome_iff_exists.mp h1
    obtain ⟨exps, he, hm⟩ := ih (acc ++ [some r0]) (fun t ht => h t (by simp [ht]))
    refine ⟨some r0 :: exps, ?_, ?_⟩
    · simp only [FilterTables.compileAll, hr0, he, List.append_assoc, List.singleton_append]
    · intro r
      simp only [List.mem_cons, Option.some.injEq, hm, exists_eq_or_imp, hr0]
      constructor
      · rintro (h2 | h2)
        · exact Or.inl h2.symm
        · exact Or.inr h2
      · rintro (h2 | h2)
        · exact Or.inl h2.symm
        · exact Or.inr h2

theorem matchesAny_iff (E : RegexpEngine) (names : List String) (v : String) :
    matchesAny E names v = true ↔
      ∃ tn ∈ names, ∃ r, E.compile (tablePattern tn) = some r ∧ E.MatchString r v = true := by
  unfold matchesAny
  rw [List.any_eq_true]
  constructor
  · rintro ⟨tn, htn, hm⟩
    cases hc : E.compile (tablePattern tn) with
    | none => simp [hc] at hm
    | some r => exact ⟨tn, htn, r, hc, by simpa [hc] using hm⟩
  · rintro ⟨tn, htn, r, hc, hm⟩
    exact ⟨tn, htn, by simpa [hc] using hm⟩

theorem matchesAny_sortStrings (E : RegexpEngine) (names : List String) (v : String) :
    matchesAny E (sortStrings names) v = matchesAny E names v := by
  rw [Bool.eq_iff_iff, matchesAny_iff, matchesAny_iff]
  have hp : ∀ tn, tn ∈ sortStrings names ↔ tn ∈ names := fun tn =>
    (List.mergeSort_perm names _).mem_iff
  constructor
  · rintro ⟨tn, htn, rest⟩; exact ⟨tn, (hp tn).mp htn, rest⟩
  · rintro ⟨tn, htn, rest⟩; exact ⟨tn, (hp tn).mpr htn, rest⟩

theorem FilterTables.prune_eq (E : RegexpEngine) (matchFlag : Bool)
    (exps : List (Option E.Regexp)) (fks acc : List ForeignKey) :
    FilterTables.prune E matchFlag exps fks acc
      = acc ++ fks.filter
          (fun fk => decide (contains E fk.TargetTableName exps = matchFlag)) := by
  induction fks generalizing acc with
  | nil => simp [FilterTables.prune]
  | cons fk rest ih =>
    by_cases h : contains E fk.TargetTableName exps = matchFlag
    · simp [FilterTables.prune, h, ih]
    · simp [FilterTables.prune, h, ih]

theorem prunedTable_idem (E : RegexpEngine) (matchFlag : Bool) (tblNames : List String)
    (t : Table) :
    prunedTable E matchFlag tblNames (prunedTable E matchFlag tblNames t)
      = prunedTable E matchFlag tblNames t := by
  simp [prunedTable, List.filter_filter]

theorem prunedHeap_nil (E : RegexpEngine) (matchFlag : Bool) (tblNames : List String)
    (heap : List Table) : prunedHeap E matchFlag tblNames heap [] = heap := by
  apply List.ext_getElem?
  intro n
  simp [prunedHeap, List.getElem?_mapIdx]

theorem prunedHeap_getElem? (E : RegexpEngine) (matchFlag : Bool) (tblNames : List String)
    (heap : List Table) (target : List Nat) (i : Nat) :
    (prunedHeap E matchFlag tblNames heap target)[i]?
      = (heap[i]?).map (fun t => if i ∈ target then prunedTable E matchFlag tblNames t else t) := by
  simp [prunedHeap, List.getElem?_mapIdx]

theorem FilterTables.loop_spec (E : RegexpEngine) (matchFlag : Bool)
    (tblNames : List String) (exps : List (Option E.Regexp))
    (hc : ∀ v, contains E v exps = matchesAny E tblNames v) (orig : List Table) :
    ∀ (tbls done target : List Nat), (∀ p ∈ tbls, p < orig.length) →
      FilterTables.loop E matchFlag exps tbls (prunedHeap E matchFlag tblNames orig done) target
        = some (prunedHeap E matchFlag tblNames orig
                  (done ++ tbls.filter (retained E matchFlag tblNames orig)),
                target ++ tbls.filter (retained E matchFlag tblNames orig)) := by
  intro tbls
  induction tbls with
  | nil => intro done target _; simp [FilterTables.loop]
  | cons p rest ih =>
    intro done target hv
    have hp : p < orig.length := hv p (by simp)
    have hrest : ∀ q ∈ rest, q < orig.length := fun q hq => hv q (by simp [hq])
    have ho : orig[p]? = some orig[p] := List.getElem?_eq_getElem hp
    obtain ⟨cur, hcur, hname, hpr⟩ : ∃ cur : Table,
        (prunedHeap E matchFlag tblNames orig done)[p]? = some cur
          ∧ cur.Name = orig[p].Name
          ∧ prunedTable E matchFlag tblNames cur = prunedTable E matchFlag tblNames orig[p] := by
      refine ⟨if p ∈ done then prunedTable E matchFlag tblNames orig[p] else orig[p], ?_, ?_, ?_⟩
      · rw [prunedHeap_getElem?, ho]; rfl
      · split <;> rfl
      · split
        · exact prunedTable_idem E matchFlag tblNames orig[p]
        · rfl
    have hpass : ∀ v, (contains E v exps = matchFlag) ↔ passes E matchFlag tblNames v = true := by
      intro v; simp [passes, hc]
    have hret : retained E matchFlag tblNames orig p = passes E matchFlag tblNames orig[p].Name := by
      simp [retained, ho]
    have hq : ({ cur with ForeingKeys := FilterTables.prune E matchFlag exps cur.ForeingKeys [] } : Table)
        = prunedTable E matchFlag tblNames orig[p] := by
      rw [← hpr]
      have hf : (fun fk => decide (contains E fk.TargetTableName exps = matchFlag))
          = (fun fk : ForeignKey => passes E matchFlag tblNames fk.TargetTableName) := by
        funext fk
        rw [Bool.eq_iff_iff]
        simp [hpass]
      rw [FilterTables.prune_eq, hf]
      rfl
    by_cases hk : passes E matchFlag tblNames orig[p].Name = true
    · have hk2 : contains E cur.Name exps = matchFlag := by rw [hname]; exact (hpass _).mpr hk
      have hstep : (prunedHeap E matchFlag tblNames orig done).set p
            (prunedTable E matchFlag tblNames orig[p])
          = prunedHeap E matchFlag tblNames orig (done ++ [p]) := by
        apply List.ext_getElem?
        intro n
        rw [List.getElem?_set, prunedHeap_getElem?, prunedHeap_getElem?]
        have hlen : (prunedHeap E matchFlag tblNames orig done).length = orig.length := by
          simp [prunedHeap]
        by_cases hn : p = n
        · subst hn
          rw [if_pos rfl, hlen, if_pos hp, ho]
          simp
        · rw [if_neg hn]
          have hn2 : ¬ n = p := fun h => hn h.symm
          simp [hn2]
      simp only [FilterTables.loop, hcur]
      rw [if_pos hk2, hq, hstep, ih (done ++ [p]) (target ++ [p]) hrest]
      simp [List.filter_cons, hret, hk]
    · have hk2 : ¬ contains E cur.Name exps = matchFlag := by
        rw [hname]; exact fun h => hk ((hpass _).mp h)
      simp only [FilterTables.loop, hcur]
      rw [if_neg hk2, ih done target hrest]
      simp [List.filter_cons, hret, hk]

theorem FilterTables_eq (E : RegexpEngine) (heap : List Table) (matchFlag : Bool)
    (tbls : List Nat) (tblNames : List String)
    (hcomp : ∀ tn ∈ tblNames, (E.compile (tablePattern tn)).isSome = true)
    (hvalid : ∀ p ∈ tbls, p < heap.length) :
    FilterTables E heap matchFlag tbls tblNames
      = some (prunedHeap E matchFlag tblNames heap
                (tbls.filter (retained E matchFlag tblNames heap)),
              tbls.filter (retained E matchFlag tblNames heap)) := by
  have hp : ∀ tn, tn ∈ sortStrings tblNames ↔ tn ∈ tblNames := fun tn =>
    (List.mergeSort_perm tblNames _).mem_iff
  obtain ⟨exps, he, hm⟩ := FilterTables.compileAll_spec E (sortStrings tblNames) []
    (fun tn htn => hcomp tn ((hp tn).mp htn))
  have hc : ∀ v, contains E v exps = matchesAny E tblNames v := by
    intro v
    rw [← matchesAny_sortStrings, Bool.eq_iff_iff, contains_iff, matchesAny_iff]
    constructor
    · rintro ⟨r, hr, hmr⟩
      obtain ⟨tn, htn, hcr⟩ := (hm r).mp hr
      exact ⟨tn, htn, r, hcr, hmr⟩
    · rintro ⟨tn, htn, r, hcr, hmr⟩
      exact ⟨r, (hm r).mpr ⟨tn, htn, hcr⟩, hmr⟩
  unfold FilterTables
  rw [he]
  simp only [List.nil_append]
  have := FilterTables.loop_spec E matchFlag tblNames exps hc heap tbls [] [] hvalid
  rw [prunedHeap_nil] at this
  simpa using this

/-- C5: when every pattern compiles (and the slice holds existing tables),
`FilterTables(match, tbls, patterns)` returns exactly the addresses of `tbls`,
in their original order, of the tables for which (at least one pattern's
expression matches the table name) equals `match`; the tables themselves keep
name, comment, flag and columns. -/
theorem C5_FilterTables_retained (E : RegexpEngine) (heap : List Table) (matchFlag : Bool)
    (tbls : List Nat) (tblNames : List String)
    (hcomp : ∀ tn ∈ tblNames, (E.compile (tablePattern tn)).isSome = true)
    (hvalid : ∀ p ∈ tbls, p < heap.length) :
    ∃ (heap' : List Table) (target : List Nat),
      FilterTables E heap matchFlag tbls tblNames = some (heap', target)
      ∧ target = tbls.filter (fun p =>
          match heap[p]? with
          | some t => matchesAny E tblNames t.Name == matchFlag
          | none => false)
      ∧ (∀ p ∈ tbls, ∀ t : Table, heap[p]? = some t →
          (p ∈ target ↔
            ((∃ tn ∈ tblNames, ∃ r, E.compile (tablePattern tn) = some r
                ∧ E.MatchString r t.Name = true) ↔ matchFlag = true)))
      ∧ heap'.length = heap.length
      ∧ (∀ (i : Nat) (t : Table), heap[i]? = some t →
          ∃ t' : Table, heap'[i]? = some t' ∧ t'.Name = t.Name
          ∧ t'.Comment = t.Comment ∧ t'.AutoGenPk = t.AutoGenPk ∧ t'.Columns = t.Columns) := by
  refine ⟨_, _, FilterTables_eq E heap matchFlag tbls tblNames hcomp hvalid, ?_, ?_, ?_, ?_⟩
  · rfl
  · intro p hp t ht
    rw [List.mem_filter, ← matchesAny_iff]
    simp only [retained, ht, passes, hp, true_and, beq_iff_eq]
    cases matchesAny E tblNames t.Name <;> cases matchFlag <;> simp
  · simp [prunedHeap]
  · intro i t ht
    rw [prunedHeap_getElem?, ht]
    refine ⟨_, rfl, ?_⟩
    split <;> simp [prunedTable]

/-- C6: every table retained by `FilterTables(match, tbls, patterns)` has, after
the call, as foreign-key list exactly the subsequence (original order) of its
original foreign keys whose `TargetTableName` satisfies (at least one pattern
matches it) == `match`; so when every foreign key's `TargetTableName` names a
table of `tbls`, every surviving foreign key's target table name is that of a
retained table. -/
theorem C6_FilterTables_prunes (E : RegexpEngine) (heap : List Table) (matchFlag : Bool)
    (tbls : List Nat) (tblNames : List String)
    (hcomp : ∀ tn ∈ tblNames, (E.compile (tablePattern tn)).isSome = true)
    (hvalid : ∀ p ∈ tbls, p < heap.length) :
    ∃ (heap' : List Table) (target : List Nat),
      FilterTables E heap matchFlag tbls tblNames = some (heap', target)
      ∧ (∀ p ∈ target, ∃ t t' : Table, heap[p]? = some t ∧ heap'[p]? = some t'
          ∧ t'.ForeingKeys = t.ForeingKeys.filter
              (fun fk => matchesAny E tblNames fk.TargetTableName == matchFlag))
      ∧ ((∀ p ∈ tbls, ∀ t : Table, heap[p]? = some t → ∀ fk ∈ t.ForeingKeys,
            ∃ q ∈ tbls, ∃ u : Table, heap[q]? = some u ∧ u.Name = fk.TargetTableName) →
          ∀ p ∈ target, ∀ t' : Table, heap'[p]? = some t' → ∀ fk ∈ t'.ForeingKeys,
            ∃ q ∈ target, ∃ u' : Table, heap'[q]? = some u' ∧ u'.Name = fk.TargetTableName) := by
  refine ⟨_, _, FilterTables_eq E heap matchFlag tbls tblNames hcomp hvalid, ?_, ?_⟩
  · intro p hp
    have hp1 := (List.mem_filter.mp hp).1
    have hlt := hvalid p hp1
    refine ⟨heap[p], prunedTable E matchFlag tblNames heap[p],
      List.getElem?_eq_getElem hlt, ?_, rfl⟩
    rw [prunedHeap_getElem?, List.getElem?_eq_getElem hlt]
    simp [hp]
  · intro hres p hp t' ht' fk hfk
    have hp1 := (List.mem_filter.mp hp).1
    have hlt := hvalid p hp1
    rw [prunedHeap_getElem?, List.getElem?_eq_getElem hlt] at ht'
    simp only [Option.map_some', hp, if_true, Option.some.injEq] at ht'
    subst ht'
    have hfk2 : fk ∈ heap[p].ForeingKeys
        ∧ passes E matchFlag tblNames fk.TargetTableName = true := by
      simpa [prunedTable, List.mem_filter] using hfk
    obtain ⟨q, hq, u, hu, hun⟩ := hres p hp1 heap[p] (List.getElem?_eq_getElem hlt) fk hfk2.1
    have hqr : q ∈ tbls.filter (retained E matchFlag tblNames heap) := by
      rw [List.mem_filter]
      refine ⟨hq, ?_⟩
      simp only [retained, hu, hun]
      exact hfk2.2
    refine ⟨q, hqr, prunedTable E matchFlag tblNames u, ?_, hun⟩
    rw [prunedHeap_getElem?, hu]
    simp [hqr]

/-! ### Relationship inference: the two loops -/

theorem analyzeFKRel.loop_congr (ti oi : Nat) (t t' o o' : Table)
    (ht : t'.Name = t.Name ∧ t'.Columns = t.Columns) (ho : o'.Name = o.Name)
    (cols : List Column) (acc : List ForeignKey) :
    analyzeFKRel.loop ti t' oi o' cols acc = analyzeFKRel.loop ti t oi o cols acc := by
  induction cols generalizing acc with
  | nil => rfl
  | cons c rest ih =>
    have hf : t'.fkEq c.Name = t.fkEq c.Name := by
      simp [Table.fkEq, ht.1, ht.2]
    simp only [analyzeFKRel.loop, hf, ht.1, ho, ih]

theorem analyzeFKRel_congr (ti oi : Nat) (t t' o o' : Table)
    (ht : t'.Name = t.Name ∧ t'.Columns = t.Columns)
    (ho : o'.Name = o.Name ∧ o'.Columns = o.Columns) :
    analyzeFKRel ti t' oi o' = analyzeFKRel ti t oi o := by
  unfold analyzeFKRel
  rw [ho.2]
  exact analyzeFKRel.loop_congr ti oi t t' o o' ht ho.1 _ _

theorem inferredHeap_getElem? (ts : List Table) (ps : List (Nat × Nat)) (k : Nat) :
    (inferredHeap ts ps)[k]?
      = (ts[k]?).map (fun t =>
          { t with ForeingKeys := t.ForeingKeys ++ ps.flatMap (pairEdges ts k) }) := by
  simp [inferredHeap, List.getElem?_mapIdx]

theorem inferredHeap_length (ts : List Table) (ps : List (Nat × Nat)) :
    (inferredHeap ts ps).length = ts.length := by
  simp [inferredHeap]

theorem inferredHeap_nil (ts : List Table) : inferredHeap ts [] = ts := by
  apply List.ext_getElem?
  intro n
  rw [inferredHeap_getElem?]
  cases ts[n]? <;> simp

theorem tabRelAnalysis_spec (ts : List Table) (ps : List (Nat × Nat)) (a b : Nat)
    (ha : a < ts.length) (hb : b < ts.length) (hab : a ≠ b) :
    tabRelAnalysis (inferredHeap ts ps) a b = some (inferredHeap ts (ps ++ [(a, b)])) := by
  obtain ⟨ta, hta⟩ : ∃ ta, ts[a]? = some ta := ⟨ts[a], List.getElem?_eq_getElem ha⟩
  obtain ⟨tb, htb⟩ : ∃ tb, ts[b]? = some tb := ⟨ts[b], List.getElem?_eq_getElem hb⟩
  have hba : b ≠ a := fun h => hab h.symm
  have h1 : (inferredHeap ts ps)[a]?
      = some { ta with ForeingKeys := ta.ForeingKeys ++ ps.flatMap (pairEdges ts a) } := by
    rw [inferredHeap_getElem?, hta]; rfl
  have h2 : (inferredHeap ts ps)[b]?
      = some { tb with ForeingKeys := tb.ForeingKeys ++ ps.flatMap (pairEdges ts b) } := by
    rw [inferredHeap_getElem?, htb]; rfl
  have hla : a < (inferredHeap ts ps).length := by rw [inferredHeap_length]; exact ha
  have e1 : analyzeFKRel a
      { ta with ForeingKeys := ta.ForeingKeys ++ ps.flatMap (pairEdges ts a) } b
      { tb with ForeingKeys := tb.ForeingKeys ++ ps.flatMap (pairEdges ts b) }
        = edgesOf ts a b := by
    rw [analyzeFKRel_congr a b ta
      { ta with ForeingKeys := ta.ForeingKeys ++ ps.flatMap (pairEdges ts a) } tb
      { tb with ForeingKeys := tb.ForeingKeys ++ ps.flatMap (pairEdges ts b) }
      ⟨rfl, rfl⟩ ⟨rfl, rfl⟩]
    simp [edgesOf, hta, htb]
  unfold tabRelAnalysis
  simp only [h1, h2, Option.bind_eq_bind, Option.some_bind, e1]
  rw [List.getElem?_set, if_neg hab, h2, List.getElem?_set, if_pos rfl, if_pos hla]
  simp only [Option.some_bind]
  have e2 : analyzeFKRel b
      { tb with ForeingKeys := tb.ForeingKeys ++ ps.flatMap (pairEdges ts b) } a
      { ta with ForeingKeys :=
          (ta.ForeingKeys ++ ps.flatMap (pairEdges ts a)) ++ edgesOf ts a b }
        = edgesOf ts b a := by
    rw [analyzeFKRel_congr b a tb
      { tb with ForeingKeys := tb.ForeingKeys ++ ps.flatMap (pairEdges ts b) } ta
      { ta with ForeingKeys :=
          (ta.ForeingKeys ++ ps.flatMap (pairEdges ts a)) ++ edgesOf ts a b }
      ⟨rfl, rfl⟩ ⟨rfl, rfl⟩]
    simp [edgesOf, hta, htb]
  rw [e2]
  simp only [pure, Option.some.injEq]
  apply List.ext_getElem?
  intro n
  simp only [List.getElem?_set, inferredHeap_getElem?, List.length_set,
    inferredHeap_length, hb, ha, if_true]
  by_cases hnb : b = n
  · subst hnb
    rw [if_pos rfl, htb]
    simp [pairEdges, List.flatMap_append, hab]
  · rw [if_neg hnb]
    by_cases hna : a = n
    · subst hna
      rw [if_pos rfl, hta]
      simp [pairEdges, List.flatMap_append, hab, hba]
    · rw [if_neg hna]
      cases ts[n]? with
      | none => rfl
      | some t => simp [pairEdges, List.flatMap_append, hna, hnb]

theorem ForeignKeyAnalysis.inner_spec (ts : List Table) (a : Nat) (ha : a < ts.length) :
    ∀ (rels : List Nat) (ps : List (Nat × Nat)),
      (∀ b ∈ rels, b < ts.length ∧ a ≠ b) →
      ForeignKeyAnalysis.inner a rels (inferredHeap ts ps)
        = some (inferredHeap ts (ps ++ rels.map (fun j => (a, j)))) := by
  intro rels
  induction rels with
  | nil => intro ps _; simp [ForeignKeyAnalysis.inner]
  | cons b rest ih =>
    intro ps h
    have hb := h b (by simp)
    simp only [ForeignKeyAnalysis.inner, tabRelAnalysis_spec ts ps a b ha hb.1 hb.2]
    rw [ih (ps ++ [(a, b)]) (fun c hc => h c (by simp [hc]))]
    simp

theorem ForeignKeyAnalysis.outer_spec (ts : List Table) :
    ∀ (m s : Nat) (ps : List (Nat × Nat)), s + m = ts.length →
      ForeignKeyAnalysis.outer ts.length (List.range' s m) (inferredHeap ts ps)
        = some (inferredHeap ts (ps ++ pairsFrom ts.length s m)) := by
  intro m
  induction m with
  | zero => intro s ps _; simp [ForeignKeyAnalysis.outer, pairsFrom]
  | succ m ih =>
    intro s ps hs
    rw [List.range'_succ]
    by_cases hlast : (s : Int) = (ts.length : Int) - 1
    · have hm : m = 0 := by omega
      subst hm
      have h0 : ts.length - (s + 1) = 0 := by omega
      simp [ForeignKeyAnalysis.outer, hlast, pairsFrom, h0]
    · simp only [ForeignKeyAnalysis.outer, hlast, if_false]
      rw [ForeignKeyAnalysis.inner_spec ts s (by omega) _ ps]
      · simp only []
        rw [ih (s + 1) _ (by omega)]
        simp [pairsFrom, List.range'_succ, List.flatMap_cons, List.append_assoc]
      · intro b hb
        rw [List.mem_range'] at hb
        obtain ⟨i, hi, rfl⟩ := hb
        omega

theorem ForeignKeyAnalysis_eq (tables : List Table)
    (hno : ∀ t ∈ tables, t.ForeingKeys = []) :
    ForeignKeyAnalysis tables
      = some (inferredHeap tables (pairsFrom tables.length 0 tables.length)) := by
  have hd : ForeignKeyAnalysis.declared tables = false := by
    rw [Bool.eq_false_iff]
    intro h
    obtain ⟨t, ht, hne⟩ := (ForeignKeyAnalysis.declared_iff tables).mp h
    exact hne (hno t ht)
  unfold ForeignKeyAnalysis
  rw [hd]
  simp only [Bool.false_eq_true, if_false]
  have h := ForeignKeyAnalysis.outer_spec tables tables.length 0 [] (by omega)
  rw [inferredHeap_nil, List.nil_append, ← List.range_eq_range'] at h
  exact h

theorem mem_pairsFrom (n : Nat) (a b : Nat) :
    (a, b) ∈ pairsFrom n 0 n ↔ a < b ∧ b < n := by
  unfold pairsFrom
  simp only [List.mem_flatMap, List.mem_map, List.mem_range', Prod.mk.injEq]
  constructor
  · rintro ⟨i, ⟨x, hx, rfl⟩, j, ⟨y, hy, rfl⟩, h1, h2⟩
    omega
  · rintro ⟨h1, h2⟩
    exact ⟨a, ⟨a, by omega, by omega⟩, b, ⟨b - (a + 1), by omega, by omega⟩, rfl, rfl⟩

theorem mem_inferred_iff (ts : List Table) (k : Nat) (hk : k < ts.length) (fk : ForeignKey) :
    fk ∈ (pairsFrom ts.length 0 ts.length).flatMap (pairEdges ts k)
      ↔ ∃ j, j < ts.length ∧ j ≠ k ∧ fk ∈ edgesOf ts k j := by
  rw [List.mem_flatMap]
  constructor
  · rintro ⟨⟨a, b⟩, hab, hfk⟩
    rw [mem_pairsFrom] at hab
    simp only [pairEdges, List.mem_append] at hfk
    rcases hfk with hfk | hfk
    · by_cases h : a = k
      · rw [if_pos h] at hfk
        exact ⟨b, hab.2, by omega, hfk⟩
      · rw [if_neg h] at hfk; simp at hfk
    · by_cases h : b = k
      · rw [if_pos h] at hfk
        exact ⟨a, by omega, by omega, hfk⟩
      · rw [if_neg h] at hfk; simp at hfk
  · rintro ⟨j, hj, hjk, hfk⟩
    rcases Nat.lt_or_gt_of_ne hjk with h | h
    · refine ⟨(j, k), (mem_pairsFrom _ _ _).mpr ⟨h, hk⟩, ?_⟩
      simp only [pairEdges, List.mem_append]
      right
      simpa using hfk
    · refine ⟨(k, j), (mem_pairsFrom _ _ _).mpr ⟨h, hj⟩, ?_⟩
      simp only [pairEdges, List.mem_append]
      left
      simpa using hfk

/-! ### Relationship inference: the edges of one directional test -/

theorem fkEq.loop_some (tName colName : String) (cols : List Column) (pk : Column)
    (h : fkEq.loop tName colName cols = some pk) :
    pk ∈ cols ∧ pk.IsPrimaryKey = true ∧
      ((stringsContains pk.Name tName = true ∧ colName = pk.Name) ∨
        (stringsContains pk.Name tName = false ∧ colName = tName ++ "_" ++ pk.Name)) := by
  induction cols with
  | nil => simp [fkEq.loop] at h
  | cons col rest ih =>
    have hrec : fkEq.loop tName colName rest = some pk →
        pk ∈ col :: rest ∧ pk.IsPrimaryKey = true ∧
          ((stringsContains pk.Name tName = true ∧ colName = pk.Name) ∨
            (stringsContains pk.Name tName = false ∧ colName = tName ++ "_" ++ pk.Name)) := by
      intro h2
      obtain ⟨h3, h4⟩ := ih h2
      exact ⟨List.mem_cons_of_mem _ h3, h4⟩
    unfold fkEq.loop at h
    by_cases hp : col.IsPrimaryKey = true
    · rw [if_pos hp] at h
      by_cases hc : stringsContains col.Name tName = true
      · rw [if_pos hc] at h
        by_cases he : colName = col.Name
        · rw [if_pos he] at h
          have hcol : col = pk := Option.some.inj h
          subst hcol
          exact ⟨by simp, hp, Or.inl ⟨hc, he⟩⟩
        · rw [if_neg he] at h
          exact hrec h
      · rw [if_neg hc] at h
        by_cases he : colName = tName ++ "_" ++ col.Name
        · rw [if_pos he] at h
          have hcol : col = pk := Option.some.inj h
          subst hcol
          exact ⟨by simp, hp, Or.inr ⟨by simpa using hc, he⟩⟩
        · rw [if_neg he] at h
          exact hrec h
    · rw [if_neg hp] at h
      exact hrec h

theorem fkEq.loop_isSome (tName colName : String) (cols : List Column) (pk : Column)
    (hmem : pk ∈ cols) (hpk : pk.IsPrimaryKey = true)
    (hname : (stringsContains pk.Name tName = true ∧ colName = pk.Name) ∨
        (stringsContains pk.Name tName = false ∧ colName = tName ++ "_" ++ pk.Name)) :
    ∃ pk0, fkEq.loop tName colName cols = some pk0 := by
  induction cols with
  | nil => simp at hmem
  | cons col rest ih =>
    unfold fkEq.loop
    by_cases hhead : fkEq.loop tName colName rest = none
    · have hcol : pk = col := by
        rcases List.mem_cons.mp hmem with h | h
        · exact h
        · obtain ⟨pk0, h0⟩ := ih h
          rw [hhead] at h0
          exact absurd h0 (by simp)
      subst hcol
      rw [if_pos hpk]
      rcases hname with ⟨hc, he⟩ | ⟨hc, he⟩
      · rw [if_pos hc, if_pos he]; exact ⟨_, rfl⟩
      · rw [if_neg (by simp [hc]), if_pos he]; exact ⟨_, rfl⟩
    · obtain ⟨pk1, h1⟩ := Option.ne_none_iff_exists'.mp hhead
      rw [h1]
      by_cases hp : col.IsPrimaryKey = true
      · rw [if_pos hp]
        split
        · split
          · exact ⟨_, rfl⟩
          · exact ⟨_, rfl⟩
        · split
          · exact ⟨_, rfl⟩
          · exact ⟨_, rfl⟩
      · rw [if_neg hp]; exact ⟨_, rfl⟩

theorem analyzeFKRel_loop_eq (ti oi : Nat) (t o : Table) (cols : List Column)
    (acc : List ForeignKey) :
    analyzeFKRel.loop ti t oi o cols acc
      = acc ++ cols.filterMap (fun col =>
          if col.IsPrimaryKey = true then none
          else (t.fkEq col.Name).map (fun source => inferredEdge ti t oi o col source)) := by
  induction cols generalizing acc with
  | nil => simp [analyzeFKRel.loop]
  | cons col rest ih =>
    unfold analyzeFKRel.loop
    by_cases hp : col.IsPrimaryKey = true
    · rw [if_pos hp, ih]
      simp [List.filterMap_cons, hp]
    · rw [if_neg hp]
      cases hf : t.fkEq col.Name with
      | none =>
        simp only [ih]
        simp [List.filterMap_cons, hp, hf]
      | some source =>
        simp only [ih]
        simp [List.filterMap_cons, hp, hf, inferredEdge]

theorem mem_analyzeFKRel (ti oi : Nat) (t o : Table) (fk : ForeignKey) :
    fk ∈ analyzeFKRel ti t oi o ↔
      ∃ col ∈ o.Columns, col.IsPrimaryKey = false ∧
        ∃ source, t.fkEq col.Name = some source ∧ fk = inferredEdge ti t oi o col source := by
  unfold analyzeFKRel
  rw [analyzeFKRel_loop_eq, List.nil_append, List.mem_filterMap]
  constructor
  · rintro ⟨col, hcol, h⟩
    by_cases hp : col.IsPrimaryKey = true
    · rw [if_pos hp] at h; exact absurd h (by simp)
    · rw [if_neg hp] at h
      cases hf : t.fkEq col.Name with
      | none => rw [hf] at h; exact absurd h (by simp)
      | some source =>
        rw [hf] at h
        exact ⟨col, hcol, by simpa using hp, source, hf, (Option.some.inj h).symm⟩
  · rintro ⟨col, hcol, hp, source, hf, rfl⟩
    refine ⟨col, hcol, ?_⟩
    rw [if_neg (by simp [hp]), hf]
    rfl

theorem mem_ForeignKeyAnalysis_iff (tables : List Table) (k : Nat) (P : Table)
    (hP : tables[k]? = some P) (hnoP : P.ForeingKeys = []) (fk : ForeignKey) :
    fk ∈ P.ForeingKeys
          ++ (pairsFrom tables.length 0 tables.length).flatMap (pairEdges tables k)
      ↔ ∃ (j : Nat) (R : Table), j ≠ k ∧ tables[j]? = some R ∧
          ∃ col ∈ R.Columns, col.IsPrimaryKey = false ∧
            ∃ source, P.fkEq col.Name = some source
              ∧ fk = inferredEdge k P j R col source := by
  have hk : k < tables.length := (List.getElem?_eq_some.mp hP).1
  rw [hnoP, List.nil_append, mem_inferred_iff tables k hk]
  constructor
  · rintro ⟨j, hj, hjk, hfk⟩
    have hR : tables[j]? = some tables[j] := List.getElem?_eq_getElem hj
    simp only [edgesOf, hP, hR] at hfk
    exact ⟨j, tables[j], hjk, hR, (mem_analyzeFKRel _ _ _ _ _).mp hfk⟩
  · rintro ⟨j, R, hjk, hR, h⟩
    refine ⟨j, (List.getElem?_eq_some.mp hR).1, hjk, ?_⟩
    simp only [edgesOf, hP, hR]
    exact (mem_analyzeFKRel _ _ _ _ _).mpr h

/-! ### Relationship inference on concrete schemas -/

theorem stringsContains_id_customers : stringsContains "id" "customers" = false := by decide

theorem stringsContains_id_customer : stringsContains "id" "customer" = false := by decide

theorem stringsContains_id_orders : stringsContains "id" "orders" = false := by decide

theorem stringsContains_customer_id_customer :
    stringsContains "customer_id" "customer" = true := by decide

theorem singularSchema_no_declared : ∀ t ∈ singularSchema, t.ForeingKeys = [] := by
  intro t ht
  simp only [singularSchema, List.mem_cons, List.mem_singleton, List.not_mem_nil,
    or_false] at ht
  rcases ht with rfl | rfl <;> rfl

/-- C1 at a failing input: on `[orders(id PK, customer_id), customer(id PK)]`
the one edge synthesized from `orders.customer_id` (referencer `orders`)
matching `customer.id` (owner `customer`) is not on the referencer's list,
which stays empty, but on the owner's; its source table is `customer` with
source column pointer `customer.id`, its target table `orders` with target
column pointer `orders.customer_id`, where the claim has source
`orders.customer_id`, target `customer.id` and the list of `orders`. -/
theorem C1_inferred_edge_reversed :
    ForeignKeyAnalysis singularSchema
        = some [ordersTable, { customerTable with ForeingKeys := [customerIdFk] }]
      ∧ ordersTable.ForeingKeys = []
      ∧ customerIdFk.SourceTableName = customerTable.Name
      ∧ customerIdFk.SourceTableName ≠ ordersTable.Name
      ∧ customerIdFk.TargetTableName = ordersTable.Name
      ∧ customerIdFk.TargetTableName ≠ customerTable.Name
      ∧ customerIdFk.SourceColumn = some (mkColumn "id" true)
      ∧ customerIdFk.SourceColumn ≠ some (mkColumn "customer_id" false)
      ∧ customerIdFk.TargetColumn = some (mkColumn "customer_id" false)
      ∧ customerIdFk.TargetColumn ≠ some (mkColumn "id" true) := by
  refine ⟨by rfl, rfl, rfl, by decide, rfl, by decide, rfl, by decide, rfl, by decide⟩

/-- C2 counterexample: on `[orders(id PK, customer_id), customers(id PK)]`
`ForeignKeyAnalysis` leaves zero foreign keys in total, not one. -/
theorem C2_counterexample_no_edge :
    (ForeignKeyAnalysis pluralSchema).map
        (fun res => (res.flatMap (fun t => t.ForeingKeys)).length) = some 0 := by
  rfl

/-- C2 (as the code has it): for `orders(id PK, customer_id)` (whatever the
name of its key column) and `customers(id PK)`, no declared foreign keys,
`ForeignKeyAnalysis` returns and leaves both tables as they were, with empty
foreign-key lists: `fkEq` matches `customers.id` only with a column named
`customers_id`, and `customer_id` is not that name. -/
theorem C2_orders_customers_inference (orders customers : Table) (oid ocust cid : Column)
    (ho1 : orders.Name = "orders") (ho2 : orders.Columns = [oid, ocust])
    (ho3 : orders.ForeingKeys = [])
    (hc2 : oid.IsPrimaryKey = true)
    (hc3 : ocust.Name = "customer_id") (hc4 : ocust.IsPrimaryKey = false)
    (hw1 : customers.Name = "customers") (hw2 : customers.Columns = [cid])
    (hw3 : customers.ForeingKeys = [])
    (hc5 : cid.Name = "id") (hc6 : cid.IsPrimaryKey = true) :
    ForeignKeyAnalysis [orders, customers] = some [orders, customers]
      ∧ orders.ForeingKeys = [] ∧ customers.ForeingKeys = [] := by
  refine ⟨?_, ho3, hw3⟩
  obtain ⟨onm, ocm, oag, ocols, ofks⟩ := orders
  obtain ⟨wn, wcm, wag, wcols, wfks⟩ := customers
  simp only at ho1 ho2 ho3 hw1 hw2 hw3
  subst ho1 ho2 ho3 hw1 hw2 hw3
  simp [ForeignKeyAnalysis, ForeignKeyAnalysis.declared, ForeignKeyAnalysis.outer,
    ForeignKeyAnalysis.inner, tabRelAnalysis, analyzeFKRel, analyzeFKRel.loop,
    Table.fkEq, fkEq.loop, hc2, hc3, hc4, hc5, hc6, List.range, List.range.loop,
    List.range', stringsContains_id_customers, stringsContains_id_orders]

/-- Witness of C2 on the tables built with default fields. -/
theorem C2_orders_customers_inference_witness :
    ForeignKeyAnalysis [ordersTable, customersTable] = some [ordersTable, customersTable]
      ∧ ordersTable.ForeingKeys = [] ∧ customersTable.ForeingKeys = [] :=
  C2_orders_customers_inference ordersTable customersTable (mkColumn "id" true)
    (mkColumn "customer_id" false) (mkColumn "id" true)
    rfl rfl rfl rfl rfl rfl rfl rfl rfl rfl rfl

/-- C3 counterexample: on `[customer(customer_id PK),
customer_address(customer_id PK, street)]` `ForeignKeyAnalysis` adds no foreign
key at all, so none links `customer_address.customer_id` to
`customer.customer_id`. -/
theorem C3_counterexample_no_link :
    ForeignKeyAnalysis addressSchema = some addressSchema
      ∧ addressSchema.flatMap (fun t => t.ForeingKeys) = [] := by
  exact ⟨by rfl, by rfl⟩

/-- C3 (as the code has it): for `customer(customer_id PK)` and
`customer_address(customer_id PK, further columns)` whose further columns are
not named `customer_id` (column names are unique within a table), no declared
foreign keys, `ForeignKeyAnalysis` returns and leaves both tables as they
were, with empty foreign-key lists: nothing links
`customer_address.customer_id` and `customer.customer_id`, because a column
that is a primary key of its own table is never taken as the referencing
column.  The proof needs neither the name of the second table, nor the name
of its key column, nor the key flags of the further columns, so they are not
assumed. -/
theorem C3_customer_address_inference (customer address : Table) (cpk apk : Column)
    (extra : List Column)
    (hn1 : customer.Name = "customer") (hcols1 : customer.Columns = [cpk])
    (hf1 : customer.ForeingKeys = [])
    (hp1 : cpk.Name = "customer_id") (hp2 : cpk.IsPrimaryKey = true)
    (hcols2 : address.Columns = apk :: extra)
    (hf2 : address.ForeingKeys = [])
    (hp4 : apk.IsPrimaryKey = true)
    (hnames : ∀ c ∈ extra, c.Name ≠ "customer_id") :
    ForeignKeyAnalysis [customer, address] = some [customer, address]
      ∧ customer.ForeingKeys = [] ∧ address.ForeingKeys = [] := by
  refine ⟨?_, hf1, hf2⟩
  have hno : ∀ t ∈ [customer, address], t.ForeingKeys = [] := by
    intro t ht
    simp only [List.mem_cons, List.mem_singleton, List.not_mem_nil, or_false] at ht
    rcases ht with rfl | rfl
    · exact hf1
    · exact hf2
  rw [ForeignKeyAnalysis_eq [customer, address] hno]
  apply congrArg some
  apply List.ext_getElem?
  intro k
  rw [inferredHeap_getElem?]
  cases hP : [customer, address][k]? with
  | none => rfl
  | some P =>
    have hnoP : P.ForeingKeys = [] := hno P (List.mem_iff_getElem?.mpr ⟨k, hP⟩)
    have hnil : P.ForeingKeys
        ++ (pairsFrom [customer, address].length 0 [customer, address].length).flatMap
            (pairEdges [customer, address] k) = [] := by
      apply List.eq_nil_iff_forall_not_mem.mpr
      intro fk hfk
      obtain ⟨j, R, hj, hR, col, hcol, hcolpk, source, hsrc, _⟩ :=
        (mem_ForeignKeyAnalysis_iff [customer, address] k P hP hnoP fk).mp hfk
      have hm := fkEq.loop_some _ _ _ _ hsrc
      match k, j with
      | 0, 0 => exact absurd rfl hj
      | 0, 1 =>
        simp only [List.getElem?_cons_zero, List.getElem?_cons_succ, Option.some.injEq]
          at hP hR
        subst hP hR
        rw [hcols2] at hcol
        rcases List.mem_cons.mp hcol with h | h
        · rw [h, hp4] at hcolpk; exact absurd hcolpk (by simp)
        · rw [hcols1] at hm
          have hs : source = cpk := by simpa using hm.1
          rw [hs, hp1, hn1, stringsContains_customer_id_customer] at hm
          have hname : col.Name = "customer_id" := by
            rcases hm.2.2 with h2 | h2
            · exact h2.2
            · exact absurd h2.1 (by simp)
          exact hnames col h hname
      | 1, 0 =>
        simp only [List.getElem?_cons_zero, List.getElem?_cons_succ, Option.some.injEq]
          at hP hR
        subst hP hR
        rw [hcols1] at hcol
        have hc : col = cpk := by simpa using hcol
        rw [hc, hp2] at hcolpk
        exact absurd hcolpk (by simp)
      | 1, 1 => exact absurd rfl hj
      | 0, (n + 2) => simp at hR
      | 1, (n + 2) => simp at hR
      | (n + 2), _ => simp at hP
    simp only [Option.map_some', Option.some.injEq]
    rw [hnil]
    obtain ⟨nm, cm, ag, cols, fks⟩ := P
    simp only at hnoP
    rw [hnoP]

/-- Witness of C3 with the further column `street`. -/
theorem C3_customer_address_inference_witness :
    ForeignKeyAnalysis addressSchema = some addressSchema
      ∧ (mkTable "customer" [mkColumn "customer_id" true]).ForeingKeys = []
      ∧ (mkTable "customer_address"
          [mkColumn "customer_id" true, mkColumn "street" false]).ForeingKeys = [] :=
  C3_customer_address_inference (mkTable "customer" [mkColumn "customer_id" true])
    (mkTable "customer_address" [mkColumn "customer_id" true, mkColumn "street" false])
    (mkColumn "customer_id" true) (mkColumn "customer_id" true) [mkColumn "street" false]
    rfl rfl rfl rfl rfl rfl rfl rfl
    (by intro c hc; simp only [List.mem_singleton] at hc; rw [hc]; decide)

/-- C10 at a failing input: in `[orders(id PK, customer_id), customer(id PK)]`
(unique table names, no declared foreign keys) `ForeignKeyAnalysis` leaves on
`customer` an edge with `SourceTableName = customer` and
`SourceColName = customer_id`, and `FindColumnByName` does not find that
column in the resulting set; the edge's `SourceColumn` is `customer.id`.  The
target side resolves. -/
theorem C10_inferred_source_unresolved :
    ForeignKeyAnalysis singularSchema = some singularResult
      ∧ singularResult.map (fun t => t.ForeingKeys) = [[], [customerIdFk]]
      ∧ FindColumnByName singularResult customerIdFk.SourceTableName
          customerIdFk.SourceColName = none
      ∧ customerIdFk.SourceColumn = some (mkColumn "id" true)
      ∧ FindColumnByName singularResult customerIdFk.TargetTableName
          customerIdFk.TargetColName = some (mkColumn "customer_id" false) := by
  exact ⟨by rfl, by rfl, by rfl, by rfl, by rfl⟩

/-! ### Witnesses on a schema with a declared foreign key -/

/-- Witness of C4: `orders` carries a declared foreign key. -/
theorem C4_ForeignKeyAnalysis_declared_unchanged_witness :
    (∃ t ∈ declaredSchema, t.ForeingKeys ≠ [])
      ∧ ForeignKeyAnalysis declaredSchema = some declaredSchema :=
  ⟨⟨_, List.mem_cons_self _ _, by decide⟩,
    C4_ForeignKeyAnalysis_declared_unchanged declaredSchema
      ⟨_, List.mem_cons_self _ _, by decide⟩⟩

theorem literalEngine_compiles (names : List String) :
    ∀ tn ∈ names, (literalEngine.compile (tablePattern tn)).isSome = true :=
  fun _ _ => rfl

theorem declaredSchema_valid : ∀ p ∈ [0, 1], p < declaredSchema.length := by decide

/-- Witness of C5: the allow-list `orders` on the declared schema. -/
theorem C5_FilterTables_retained_witness :
    (∀ tn ∈ ["orders"], (literalEngine.compile (tablePattern tn)).isSome = true)
      ∧ (∀ p ∈ [0, 1], p < declaredSchema.length)
      ∧ ∃ (heap' : List Table) (target : List Nat),
          FilterTables literalEngine declaredSchema true [0, 1] ["orders"]
            = some (heap', target)
          ∧ heap'.length = declaredSchema.length :=
  ⟨literalEngine_compiles _, declaredSchema_valid,
    (C5_FilterTables_retained literalEngine declaredSchema true [0, 1] ["orders"]
      (literalEngine_compiles _) declaredSchema_valid).imp
      (fun _ h => h.imp (fun _ h2 => ⟨h2.1, h2.2.2.2.1⟩))⟩

/-- Witness of C6: the deny-list `customers` on the declared schema. -/
theorem C6_FilterTables_prunes_witness :
    (∀ tn ∈ ["customers"], (literalEngine.compile (tablePattern tn)).isSome = true)
      ∧ (∀ p ∈ [0, 1], p < declaredSchema.length)
      ∧ ∃ (heap' : List Table) (target : List Nat),
          FilterTables literalEngine declaredSchema false [0, 1] ["customers"]
            = some (heap', target)
          ∧ (∀ p ∈ target, ∃ t t' : Table, declaredSchema[p]? = some t ∧ heap'[p]? = some t'
              ∧ t'.ForeingKeys = t.ForeingKeys.filter
                  (fun fk => matchesAny literalEngine ["customers"] fk.TargetTableName
                    == false)) :=
  ⟨literalEngine_compiles _, declaredSchema_valid,
    (C6_FilterTables_prunes literalEngine declaredSchema false [0, 1] ["customers"]
      (literalEngine_compiles _) declaredSchema_valid).imp
      (fun _ h => h.imp (fun _ h2 => ⟨h2.1, h2.2.1⟩))⟩

/-- Witness of C7: the declared key `orders.customer_id -> customers.id`. -/
theorem C7_IsOneToOne_iff_witness :
    declaredSchema[declaredOrdersFk.SourceTable]? = some
        ({ mkTable "orders" [mkColumn "id" true, mkColumn "customer_id" false] with
            ForeingKeys := [declaredOrdersFk] })
      ∧ declaredSchema[declaredOrdersFk.TargetTable]? = some customersTable
      ∧ ∃ b, declaredOrdersFk.IsOneToOne declaredSchema = some b
          ∧ (¬ 2 ≤ Table.pkCount ({ mkTable "orders"
                [mkColumn "id" true, mkColumn "customer_id" false] with
                  ForeingKeys := [declaredOrdersFk] }) →
              (b = true ↔ (mkColumn "customer_id" false).IsPrimaryKey = true
                ∧ (mkColumn "id" true).IsPrimaryKey = true)) :=
  ⟨rfl, rfl,
    (C7_IsOneToOne_iff declaredSchema declaredOrdersFk _ customersTable
      (mkColumn "customer_id" false) (mkColumn "id" true) rfl rfl rfl rfl).imp
      (fun _ h => ⟨h.1, h.2.2⟩)⟩

/-! ### Cardinality of the inferred edges -/

theorem IsOneToOne_false_of_own_unkeyed_edge (heap : List Table) (k : ForeignKey)
    (S T : Table) (sc tc : Column)
    (hS : heap[k.SourceTable]? = some S) (hT : heap[k.TargetTable]? = some T)
    (hmem : k ∈ S.ForeingKeys) (hflag : k.IsSourceColPrimaryKey = false)
    (hsc : k.SourceColumn = some sc) (htc : k.TargetColumn = some tc)
    (htpk : tc.IsPrimaryKey = false) :
    k.IsOneToOne heap = some false := by
  have hall : IsOneToOne.allPk
      (IsOneToOne.collect k.TargetTableName S.ForeingKeys []) = false := by
    rw [Bool.eq_false_iff]
    intro h
    rw [IsOneToOne.allPk_iff, IsOneToOne.collect_eq] at h
    have hk := h k (by simp [hmem])
    rw [hflag] at hk
    exact absurd hk.1 (by simp)
  cases hSc : S.IsCompositePK <;> cases hTc : T.IsCompositePK <;>
    cases hp : sc.IsPrimaryKey <;>
    simp [ForeignKey.IsOneToOne, hS, hT, hsc, htc, hSc, hTc, hp, htpk, hall]

/-- C11: in a table set without declared foreign keys, `ForeignKeyAnalysis`
returns and every foreign key it leaves on a table's list is classified
one-to-many: `IsOneToOne`, read in the resulting tables, returns false on it,
whatever the key structure of the tables. -/
theorem C11_inferred_edges_one_to_many (tables : List Table)
    (hno : ∀ t ∈ tables, t.ForeingKeys = []) :
    ∃ result : List Table, ForeignKeyAnalysis tables = some result
      ∧ ∀ t ∈ result, ∀ fk ∈ t.ForeingKeys, fk.IsOneToOne result = some false := by
  refine ⟨_, ForeignKeyAnalysis_eq tables hno, ?_⟩
  intro t ht fk hfk
  obtain ⟨k, hk⟩ := List.mem_iff_getElem?.mp ht
  have hk0 := hk
  rw [inferredHeap_getElem?] at hk
  cases hP : tables[k]? with
  | none => rw [hP] at hk; exact absurd hk (by simp)
  | some P =>
    rw [hP] at hk
    have ht2 := Option.some.inj hk
    subst ht2
    have hnoP : P.ForeingKeys = [] := hno P (List.mem_iff_getElem?.mpr ⟨k, hP⟩)
    obtain ⟨j, R, _, hR, col, _, hcolpk, source, _, hfkeq⟩ :=
      (mem_ForeignKeyAnalysis_iff tables k P hP hnoP fk).mp hfk
    have hT : (inferredHeap tables (pairsFrom tables.length 0 tables.length))[j]?
        = some { R with ForeingKeys := R.ForeingKeys
            ++ (pairsFrom tables.length 0 tables.length).flatMap (pairEdges tables j) } := by
      rw [inferredHeap_getElem?, hR]; rfl
    have hst : fk.SourceTable = k := by rw [hfkeq]; rfl
    have htt : fk.TargetTable = j := by rw [hfkeq]; rfl
    exact IsOneToOne_false_of_own_unkeyed_edge _ fk _ _ source col
      (by rw [hst]; exact hk0) (by rw [htt]; exact hT) hfk
      (by rw [hfkeq]; rfl) (by rw [hfkeq]; rfl) (by rw [hfkeq]; rfl) hcolpk

/-- Witness of C11 on `[orders(id PK, customer_id), customer(id PK)]`. -/
theorem C11_inferred_edges_one_to_many_witness :
    (∀ t ∈ singularSchema, t.ForeingKeys = [])
      ∧ ∃ result : List Table, ForeignKeyAnalysis singularSchema = some result
          ∧ ∀ t ∈ result, ∀ fk ∈ t.ForeingKeys, fk.IsOneToOne result = some false :=
  ⟨singularSchema_no_declared,
    C11_inferred_edges_one_to_many singularSchema singularSchema_no_declared⟩

end Planter
